import Mathlib

/-!
Shallow embedding of the `kvs` key-value store.

The engine built by `src/lib.rs` is `src/kvs.rs` (`KvStore` over a skip list,
io_uring positioned reads/writes, a hint file written on drop).  A second,
unused prototype lives in `src/engines/kvs.rs` (tagged log records with a
decoder `Log::read`); it is embedded in the `Engines` namespace below.

Bytes are modelled as `Nat` (values kept below 256 by construction where it
matters), files as `List Nat`, and the on-disk directory / in-memory maps as
association lists.  I/O failure paths (filesystem errors) are outside the
model; panics and `Err` returns of the source are modelled as `none`.
-/

set_option maxRecDepth 100000

namespace Kvs

abbrev Key := List Nat

abbrev Value := List Nat

/-- Association-list lookup, mirroring `SkipMap::get` / `DashMap::get`. -/
def alGet {α β : Type} [DecidableEq α] : List (α × β) → α → Option β
  | [], _ => none
  | (a, b) :: rest, k => if a = k then some b else alGet rest k

/-- Association-list insert-or-replace, mirroring `SkipMap::insert`. -/
def alInsert {α β : Type} [DecidableEq α] : List (α × β) → α → β → List (α × β)
  | [], k, v => [(k, v)]
  | (a, b) :: rest, k, v => if a = k then (k, v) :: rest else (a, b) :: alInsert rest k v

/-- Association-list removal, mirroring `SkipMap::remove`. -/
def alRemove {α β : Type} [DecidableEq α] : List (α × β) → α → List (α × β)
  | [], _ => []
  | (a, b) :: rest, k => if a = k then rest else (a, b) :: alRemove rest k

/-- `rio.read_at(file, &buffer, pos)` with `buffer = vec![0u8; len]`:
the buffer is zero-initialised and a short read leaves trailing zeros. -/
def readAt (file : List Nat) (pos len : Nat) : List Nat :=
  (file.drop pos).take len ++ List.replicate (len - (file.length - pos)) 0

/-- `rio.write_at(file, &data, pos)`: positioned write, zero-padding the gap
when `pos` is past the end of the file (sparse-file semantics). -/
def writeAt (file : List Nat) (pos : Nat) (data : List Nat) : List Nat :=
  file.take pos ++ List.replicate (pos - file.length) 0 ++ data ++
    file.drop (pos + data.length)

/-- Content of generation `g`, empty when the file does not exist. -/
def getFile (files : List (Nat × List Nat)) (g : Nat) : List Nat :=
  (alGet files g).getD []

/-- `const MAX_FILE_SIZE: u64 = 1000;` (src/kvs.rs). -/
def MAX_FILE_SIZE : Nat := 1000

/-- `const COMPACTION_THRESHOLD: u64 = (MAX_FILE_SIZE as f64 * 0.6) as u64;`
which evaluates to 600 (the f64 product rounds to exactly 600.0). -/
def COMPACTION_THRESHOLD : Nat := 600

structure LogPos where
  gen : Nat
  pos : Nat
  len : Nat
deriving DecidableEq, Repr

/-- State of `KvStore` (src/kvs.rs): `files` is the directory's `<gen>.log`
contents, which the reader pool mirrors; `pending` is the queue of
generations sent on `compact_sender`. -/
structure KvState where
  keydir : List (Key × LogPos)
  activeGen : Nat
  files : List (Nat × List Nat)
  writerPos : Nat
  deadBytes : List (Nat × Nat)
  pending : List Nat
deriving DecidableEq, Repr

/-- `KvStore::use_next_gen`: a rotation request is ignored while
`writer_pos < COMPACTION_THRESHOLD`; otherwise the generation counter is
bumped, a fresh log file is created (without truncating an existing one)
and registered with the reader pool, and `writer_pos` resets to 0. -/
def useNextGen (s : KvState) : KvState :=
  if s.writerPos < COMPACTION_THRESHOLD then s
  else
    let g := s.activeGen + 1
    { s with
      activeGen := g
      writerPos := 0
      files := alInsert s.files g (getFile s.files g) }

/-- `KvStore::write_log`: rotate when `writer_pos >= MAX_FILE_SIZE`, then
write the raw value bytes (no tag, no key, no length framing) at the
current writer position and advance it. -/
def writeLog (s : KvState) (value : List Nat) : KvState × LogPos :=
  let s := if MAX_FILE_SIZE ≤ s.writerPos then useNextGen s else s
  let pos := s.writerPos
  let s := { s with
    writerPos := pos + value.length
    files := alInsert s.files s.activeGen
      (writeAt (getFile s.files s.activeGen) pos value) }
  (s, ⟨s.activeGen, pos, value.length⟩)

/-- `KvStore::set`: account dead bytes of the overwritten record (possibly
enqueueing its generation for compaction), append the value, install the
new `LogPos` in the key directory. -/
def KvState.set (s : KvState) (k : Key) (v : Value) : KvState :=
  let s :=
    match alGet s.keydir k with
    | some old =>
      let db := (alGet s.deadBytes old.gen).getD 0 + old.len
      { s with
        deadBytes := alInsert s.deadBytes old.gen db
        pending := if COMPACTION_THRESHOLD ≤ db then s.pending ++ [old.gen] else s.pending }
    | none => s
  let sl := writeLog s v
  { sl.1 with keydir := alInsert sl.1.keydir k sl.2 }

/-- `KvStore::remove`: take the key-directory entry; if present, account its
dead bytes (possibly enqueueing compaction) and return `Ok` — nothing is
appended to any log file; if absent, return `Err(KeyNotFound)` (the `Bool`
is `true` exactly on the `Ok` path). -/
def KvState.remove (s : KvState) (k : Key) : KvState × Bool :=
  match alGet s.keydir k with
  | some old =>
    let s := { s with keydir := alRemove s.keydir k }
    let db := (alGet s.deadBytes old.gen).getD 0 + old.len
    ({ s with
       deadBytes := alInsert s.deadBytes old.gen db
       pending := if COMPACTION_THRESHOLD ≤ db then s.pending ++ [old.gen] else s.pending },
     true)
  | none => (s, false)

/-- `KvStore::get`: look up the key directory and read `len` bytes at the
recorded position.  The outer `Option` is the `Result`: `none` models the
panic when the reader handle for the recorded generation is missing. -/
def KvState.get (s : KvState) (k : Key) : Option (Option Value) :=
  match alGet s.keydir k with
  | none => some none
  | some p =>
    match alGet s.files p.gen with
    | none => none
    | some f => some (some (readAt f p.pos p.len))

/-- A client operation on the store (the public mutating API). -/
inductive Op where
  | set (k : Key) (v : Value)
  | remove (k : Key)
deriving DecidableEq, Repr

def KvState.applyOp (s : KvState) : Op → KvState
  | .set k v => s.set k v
  | .remove k => (s.remove k).1

/-- Run a sequence of client operations sequentially (no concurrency). -/
def runOps (s : KvState) (ops : List Op) : KvState :=
  ops.foldl KvState.applyOp s

/-- Modelled from the spec: the abstract map after one acknowledged
operation — a `set` binds the key, a `remove` unbinds it (a `remove` of an
absent key is not acknowledged and is a no-op on the store, so mapping it
to "unbound" agrees with the code). -/
def specApply (m : Key → Option Value) : Op → Key → Option Value
  | .set k v => fun x => if x = k then some v else m x
  | .remove k => fun x => if x = k then none else m x

/-- Modelled from the spec: value of the last acknowledged `set` to a key
not followed by an acknowledged `remove`, `none` otherwise. -/
def specRun (ops : List Op) : Key → Option Value :=
  ops.foldl specApply fun _ => none

/-- The `<dir>/keydir` hint file: missing, unreadable by `bincode`, or a
cleanly serialized `(keydir, dead_bytes)` pair. -/
inductive HintFile where
  | absent
  | corrupt
  | good (keydir : List (Key × LogPos)) (deadBytes : List (Nat × Nat))
deriving DecidableEq, Repr

/-- A store directory: the `<gen>.log` files plus the optional hint file. -/
structure Disk where
  logs : List (Nat × List Nat)
  hint : HintFile
deriving DecidableEq, Repr

/-- The largest generation number present (the code collects the parsed
stems, sorts ascending and takes the last; with `0` when none exist). -/
def maxGen (logs : List (Nat × List Nat)) : Nat :=
  (logs.map Prod.fst).foldl max 0

/-- `KvStore::open` (src/kvs.rs): enumerate `<gen>.log` files (creating
generation 0 when none exist), open the largest as the writer without
truncation and seek to its end, open every generation read-only, then load
the hint file: a missing hint yields `Default::default()` (empty key
directory — there is no replay in this engine), a corrupt hint panics in
`bincode::deserialize(..).unwrap()` (modelled `none`), a clean hint is
adopted verbatim. -/
def openStore (d : Disk) : Option KvState :=
  let logs := if d.logs.isEmpty then [(0, [])] else d.logs
  let activeGen := maxGen logs
  let writerPos := (getFile logs activeGen).length
  match d.hint with
  | .absent => some
      { keydir := [], activeGen, files := logs, writerPos, deadBytes := [], pending := [] }
  | .corrupt => none
  | .good kd db => some
      { keydir := kd, activeGen, files := logs, writerPos, deadBytes := db, pending := [] }

/-- `Drop for KvStore`: serialize `(keydir, dead_bytes)` into the hint file
(the log files are already on disk). -/
def closeStore (s : KvState) : Disk :=
  ⟨s.files, .good s.keydir s.deadBytes⟩

/-- An empty store directory. -/
def emptyDisk : Disk := ⟨[], .absent⟩

/-- The store produced by `KvStore::open` on an empty directory. -/
def freshStore : KvState :=
  { keydir := [], activeGen := 0, files := [(0, [])], writerPos := 0
    deadBytes := [], pending := [] }

/-- The guard at the top of `KvStore::compact`'s loop body: skip the
generation when it is active or its dead-byte count is absent or below the
threshold. -/
def compactSkip (s : KvState) (gen : Nat) : Bool :=
  s.activeGen == gen ||
    match alGet s.deadBytes gen with
    | some d => decide (d < COMPACTION_THRESHOLD)
    | none => true

/-- The per-entry loop of `KvStore::compact`: read the live record's bytes
from generation `gen`, append them to the active file, and repoint the key
directory entry.  The source iterates the live skip list filtered on
`value().gen == gen`; since every insertion made by the loop carries the
active generation (≠ `gen`), iterating a pre-computed snapshot is the same
sequential behaviour.  `entry.is_removed()` is always false without
concurrent removers. -/
def compactLoop (gen : Nat) : List (Key × LogPos) → KvState → KvState
  | [], s => s
  | (key, p) :: rest, s =>
    let buffer := readAt (getFile s.files gen) p.pos p.len
    let pos := s.writerPos
    let s := { s with
      writerPos := pos + buffer.length
      files := alInsert s.files s.activeGen
        (writeAt (getFile s.files s.activeGen) pos buffer) }
    let s := { s with keydir := alInsert s.keydir key ⟨s.activeGen, pos, buffer.length⟩ }
    compactLoop gen rest s

/-- One work unit of `KvStore::compact` for a generation received on the
channel: skip per `compactSkip`; otherwise rotate if the writer is full,
drop the generation's dead-byte entry, copy its live records forward, then
drop its reader handle and delete `<gen>.log`.  When the generation's file
is missing, the loop's `readers.get(&gen).unwrap()` (or the final
`fs::remove_file`) fails — modelled as a single upfront `none`. -/
def compactGen (s : KvState) (gen : Nat) : Option KvState :=
  if compactSkip s gen then some s
  else
    let s := if MAX_FILE_SIZE ≤ s.writerPos then useNextGen s else s
    match alGet s.files gen with
    | none => none
    | some _ =>
      let s := { s with deadBytes := alRemove s.deadBytes gen }
      let s := compactLoop gen (s.keydir.filter fun e => e.2.gen == gen) s
      some { s with
        deadBytes := alRemove s.deadBytes gen
        files := alRemove s.files gen }

namespace Engines

/-- `u64::to_be_bytes` / `usize::to_be_bytes` (8 bytes, big-endian). -/
def be8 (n : Nat) : List Nat :=
  [n / 2 ^ 56 % 256, n / 2 ^ 48 % 256, n / 2 ^ 40 % 256, n / 2 ^ 32 % 256,
   n / 2 ^ 24 % 256, n / 2 ^ 16 % 256, n / 2 ^ 8 % 256, n % 256]

/-- Big-endian value of a byte list (`usize::from_be_bytes`). -/
def beVal (l : List Nat) : Nat :=
  l.foldl (fun acc b => acc * 256 + b) 0

/-- `enum Log` of src/engines/kvs.rs: `Set` is the spec's `Put`, `Remove`
the spec's `Tombstone`. -/
inductive LogRec where
  | set (key value : List Nat)
  | remove (key : List Nat)
deriving DecidableEq, Repr

/-- The bytes `KvStore::write_log` (src/engines/kvs.rs) emits for a record:
tag `1` then 8-byte big-endian key and value lengths, key, value for `Set`;
tag `0` then 8-byte big-endian key length, key for `Remove`.  The source
writes the pieces at consecutive offsets, which concatenates them. -/
def encodeLog : LogRec → List Nat
  | .set k v => 1 :: (be8 k.length ++ be8 v.length ++ k ++ v)
  | .remove k => 0 :: (be8 k.length ++ k)

/-- `Log::read` (src/engines/kvs.rs): read a 17-byte header at `pos` into a
zeroed buffer, then dispatch on the tag byte.  Tag `0` is decoded as `Set`:
key length from bytes 1..9, value length from bytes 9..17, key read at
`pos + 9`, value at `pos + 17`.  Tag `1` is decoded as `Remove`, but the
key-length slice is `buffer[1..8]` — 7 bytes — whose `try_into` to
`[u8; 8]` fails and is unwrapped: a panic, modelled `none`.  Any other tag
panics. -/
def decodeLog (file : List Nat) (pos : Nat) : Option (LogRec × Nat) :=
  let buffer := readAt file pos 17
  match buffer.head? with
  | some 0 =>
    let keyLen := beVal ((buffer.drop 1).take 8)
    let valueLen := beVal ((buffer.drop 9).take 8)
    let key := readAt file (pos + 9) keyLen
    let value := readAt file (pos + 17) valueLen
    some (.set key value, 17 + keyLen + valueLen)
  | some 1 => none
  | _ => none

/-- `KvStore::replay_logs` (src/engines/kvs.rs): walk the generations in
ascending order, decoding exactly one record per file (the source has no
inner loop over records; its `pos += len` never feeds a second read).  A
`Set` accounts the overwritten entry's dead bytes and installs the key at
offset 0; a `Remove` of a key not in the key directory is `panic!()`,
modelled `none`, as is any `Log::read` failure. -/
def replayLogs :
    List (Nat × List Nat) → List (Key × LogPos) → List (Nat × Nat) →
      Option (List (Key × LogPos) × List (Nat × Nat))
  | [], keydir, deadBytes => some (keydir, deadBytes)
  | (gen, file) :: rest, keydir, deadBytes =>
    match decodeLog file 0 with
    | none => none
    | some (.set key _value, len) =>
      let deadBytes :=
        match alGet keydir key with
        | some old => alInsert deadBytes old.gen ((alGet deadBytes old.gen).getD 0 + old.len)
        | none => deadBytes
      replayLogs rest (alInsert keydir key ⟨gen, 0, len⟩) deadBytes
    | some (.remove key, _len) =>
      match alGet keydir key with
      | some old =>
        replayLogs rest (alRemove keydir key)
          (alInsert deadBytes old.gen ((alGet deadBytes old.gen).getD 0 + old.len))
      | none => none

/-- `const MAX_FILE_SIZE: u64 = 1024 * 1024;` (src/engines/kvs.rs). -/
def EMAX_FILE_SIZE : Nat := 1024 * 1024

/-- `(1048576 as f64 * 0.6) as u64 = 629145` (the f64 product is exactly
629145.5999999999767..., truncated). -/
def ECOMPACTION_THRESHOLD : Nat := 629145

/-- State of the src/engines/kvs.rs `KvStore` (no compaction channel). -/
structure EKvState where
  keydir : List (Key × LogPos)
  activeGen : Nat
  files : List (Nat × List Nat)
  writerPos : Nat
  deadBytes : List (Nat × Nat)
deriving DecidableEq, Repr

/-- `KvStore::use_next_gen` (src/engines/kvs.rs): unconditional rotation
(no threshold guard, and no reader-pool registration). -/
def eUseNextGen (s : EKvState) : EKvState :=
  let g := s.activeGen + 1
  { s with
    activeGen := g
    writerPos := 0
    files := alInsert s.files g (getFile s.files g) }

/-- `KvStore::write_log` (src/engines/kvs.rs): rotate when the writer is
full, compute the framed length, claim the offset, and write the record
pieces at consecutive positions (concatenated here). -/
def eWriteLog (s : EKvState) (key : List Nat) (value : Option (List Nat)) :
    EKvState × LogPos :=
  let s := if EMAX_FILE_SIZE ≤ s.writerPos then eUseNextGen s else s
  let len := 1 + 8 + key.length +
    match value with
    | some v => 8 + v.length
    | none => 0
  let pos := s.writerPos
  let data :=
    match value with
    | some v => encodeLog (.set key v)
    | none => encodeLog (.remove key)
  let s := { s with
    writerPos := pos + len
    files := alInsert s.files s.activeGen
      (writeAt (getFile s.files s.activeGen) pos data) }
  (s, ⟨s.activeGen, pos, len⟩)

/-- `KvStore::remove` (src/engines/kvs.rs): take the key-directory entry;
if present append a `Remove` (tombstone) record via `write_log` before
returning `Ok`, accounting dead bytes of both the overwritten record and,
on rotation, the tombstone itself; if absent return `Err(KeyNotFound)`. -/
def eRemove (s : EKvState) (k : Key) : EKvState × Bool :=
  match alGet s.keydir k with
  | some old =>
    let s := { s with keydir := alRemove s.keydir k }
    let sr := eWriteLog s k none
    let s := sr.1
    let rm := sr.2
    let s := { s with
      deadBytes := alInsert s.deadBytes old.gen
        ((alGet s.deadBytes old.gen).getD 0 + old.len) }
    let s :=
      if old.gen ≠ rm.gen then
        { s with
          deadBytes := alInsert s.deadBytes rm.gen
            ((alGet s.deadBytes rm.gen).getD 0 + rm.len) }
      else s
    (s, true)
  | none => (s, false)

end Engines

/-- Modelled from the spec (§4.1), for comparison with the code: the
record format's decoder.  A record begins with a one-byte tag, `0x01` for
`Put` and `0x00` for `Tombstone`; a `Put` continues with the 8-byte
big-endian key and value lengths, the key bytes and the value bytes; a
`Tombstone` with the 8-byte big-endian key length and the key bytes.  The
decoder returns the record and its on-disk length, or `none` on a
truncated tail or unknown tag. -/
def specFormatDecode (file : List Nat) (pos : Nat) : Option (Engines.LogRec × Nat) :=
  let bytes := file.drop pos
  match bytes.head? with
  | some 1 =>
    if 17 ≤ bytes.length then
      let keyLen := Engines.beVal ((bytes.drop 1).take 8)
      let valLen := Engines.beVal ((bytes.drop 9).take 8)
      if 17 + keyLen + valLen ≤ bytes.length then
        some (.set ((bytes.drop 17).take keyLen) ((bytes.drop (17 + keyLen)).take valLen),
          17 + keyLen + valLen)
      else none
    else none
  | some 0 =>
    if 9 ≤ bytes.length then
      let keyLen := Engines.beVal ((bytes.drop 1).take 8)
      if 9 + keyLen ≤ bytes.length then
        some (.remove ((bytes.drop 9).take keyLen), 9 + keyLen)
      else none
    else none
  | _ => none

/-- A concrete store state used to exercise compaction: generation 0 is
sealed, holds one live 700-byte record and 700 dead bytes; generation 1 is
the empty active file. -/
def compactWitnessState : KvState :=
  { keydir := [([5], ⟨0, 0, 700⟩)]
    activeGen := 1
    files := [(0, List.replicate 700 3), (1, [])]
    writerPos := 0
    deadBytes := [(0, 700)]
    pending := [0] }

/-- A concrete engines-store state with one key whose record fills the
active file's first 19 bytes. -/
def eRemoveWitnessState : Engines.EKvState :=
  { keydir := [([107], ⟨0, 0, 19⟩)]
    activeGen := 0
    files := [(0, List.replicate 19 1)]
    writerPos := 19
    deadBytes := [] }

/-- Invariant of a quiescent `KvStore` state: key directories and reader
pools have no duplicate keys, the writer position is the length of the
active file, every key-directory entry points inside an existing
generation file, every generation file is at most the active one, and the
active generation's file exists. -/
def INV (s : KvState) : Prop :=
  (s.keydir.map Prod.fst).Nodup ∧
  (s.files.map Prod.fst).Nodup ∧
  s.writerPos = (getFile s.files s.activeGen).length ∧
  (∀ e ∈ s.keydir, (alGet s.files e.2.gen).isSome = true ∧
    e.2.pos + e.2.len ≤ (getFile s.files e.2.gen).length) ∧
  (∀ e ∈ s.files, e.1 ≤ s.activeGen) ∧
  (alGet s.files s.activeGen).isSome = true

instance (s : KvState) : Decidable (INV s) := by
  unfold INV
  infer_instance

/-- Refinement relation: the store satisfies its invariant and `get`
observes exactly the abstract map `m`. -/
def GOOD (s : KvState) (m : Key → Option Value) : Prop :=
  INV s ∧ ∀ k, s.get k = some (m k)

/-- The state produced by an actual rotation (proof-layer abbreviation for
the non-ignored branch of `use_next_gen`). -/
def rotated (s : KvState) : KvState :=
  { s with
    activeGen := s.activeGen + 1
    writerPos := 0
    files := alInsert s.files (s.activeGen + 1) (getFile s.files (s.activeGen + 1)) }

/-- The pure append step shared by `write_log` and the compaction loop:
claim the current writer offset and write `v` there. -/
def writeStep (s1 : KvState) (v : List Nat) : KvState :=
  { s1 with
    writerPos := s1.writerPos + v.length
    files := alInsert s1.files s1.activeGen
      (writeAt (getFile s1.files s1.activeGen) s1.writerPos v) }

/-- The non-skipped tail of one `compact` work unit (proof-layer
abbreviation): drop the dead-byte entry, copy live records forward, drop
the reader and delete the file. -/
def compactRun (s1 : KvState) (gen : Nat) : KvState :=
  let s2 := { s1 with deadBytes := alRemove s1.deadBytes gen }
  let s3 := compactLoop gen (s2.keydir.filter fun e => e.2.gen == gen) s2
  { s3 with deadBytes := alRemove s3.deadBytes gen, files := alRemove s3.files gen }

/-! ### Association-list lemmas -/

theorem alGet_insert_self {α β : Type} [DecidableEq α] (m : List (α × β)) (k : α) (v : β) :
    alGet (alInsert m k v) k = some v := by
  induction m with
  | nil => simp [alInsert, alGet]
  | cons e rest ih =>
    obtain ⟨a, b⟩ := e
    by_cases h : a = k
    · simp [alInsert, h, alGet]
    · simp [alInsert, h, alGet, ih]

theorem alGet_insert_ne {α β : Type} [DecidableEq α] (m : List (α × β)) (k k' : α) (v : β)
    (h : k' ≠ k) : alGet (alInsert m k v) k' = alGet m k' := by
  induction m with
  | nil => simp [alInsert, alGet, Ne.symm h]
  | cons e rest ih =>
    obtain ⟨a, b⟩ := e
    by_cases ha : a = k
    · subst ha
      simp [alInsert, alGet, Ne.symm h]
    · simp [alInsert, ha, alGet, ih]

theorem alGet_remove_ne {α β : Type} [DecidableEq α] (m : List (α × β)) (k k' : α)
    (h : k' ≠ k) : alGet (alRemove m k) k' = alGet m k' := by
  induction m with
  | nil => simp [alRemove]
  | cons e rest ih =>
    obtain ⟨a, b⟩ := e
    by_cases ha : a = k
    · subst ha
      simp [alRemove, alGet, Ne.symm h]
    · simp [alRemove, ha, alGet, ih]

theorem alGet_eq_none_of_not_mem {α β : Type} [DecidableEq α] (m : List (α × β)) (k : α)
    (h : k ∉ m.map Prod.fst) : alGet m k = none := by
  induction m with
  | nil => rfl
  | cons e rest ih =>
    obtain ⟨a, b⟩ := e
    simp only [List.map_cons, List.mem_cons] at h
    push_neg at h
    simp [alGet, Ne.symm h.1, ih h.2]

theorem alGet_remove_self {α β : Type} [DecidableEq α] (m : List (α × β)) (k : α)
    (hnd : (m.map Prod.fst).Nodup) : alGet (alRemove m k) k = none := by
  induction m with
  | nil => rfl
  | cons e rest ih =>
    obtain ⟨a, b⟩ := e
    simp only [List.map_cons, List.nodup_cons] at hnd
    by_cases ha : a = k
    · subst ha
      simpa [alRemove] using alGet_eq_none_of_not_mem rest a hnd.1
    · simp [alRemove, ha, alGet, ih hnd.2]

theorem alGet_mem {α β : Type} [DecidableEq α] {m : List (α × β)} {k : α} {v : β}
    (h : alGet m k = some v) : (k, v) ∈ m := by
  induction m with
  | nil => simp [alGet] at h
  | cons e rest ih =>
    obtain ⟨a, b⟩ := e
    by_cases ha : a = k
    · subst ha
      have hb : b = v := by simpa [alGet] using h
      subst hb
      exact List.mem_cons_self _ _
    · simp only [alGet, if_neg ha] at h
      simp [ih h]

theorem mem_alGet {α β : Type} [DecidableEq α] {m : List (α × β)} {k : α} {v : β}
    (h : (k, v) ∈ m) (hnd : (m.map Prod.fst).Nodup) : alGet m k = some v := by
  induction m with
  | nil => cases h
  | cons e rest ih =>
    obtain ⟨a, b⟩ := e
    simp only [List.map_cons, List.nodup_cons] at hnd
    rcases List.mem_cons.1 h with h1 | h1
    · cases h1
      simp [alGet]
    · have hak : a ≠ k := by
        rintro rfl
        exact hnd.1 (List.mem_map.2 ⟨(a, v), h1, rfl⟩)
      simp [alGet, hak, ih h1 hnd.2]

theorem mem_alInsert {α β : Type} [DecidableEq α] {m : List (α × β)} {k : α} {v : β}
    {e : α × β} (h : e ∈ alInsert m k v) : e = (k, v) ∨ e ∈ m := by
  induction m with
  | nil => simpa [alInsert] using h
  | cons p rest ih =>
    obtain ⟨a, b⟩ := p
    by_cases ha : a = k
    · subst ha
      have h2 : e = (a, v) ∨ e ∈ rest := by simpa [alInsert] using h
      rcases h2 with h2 | h2
      · exact Or.inl h2
      · exact Or.inr (List.mem_cons_of_mem _ h2)
    · simp only [alInsert, if_neg ha, List.mem_cons] at h
      rcases h with h | h
      · exact Or.inr (List.mem_cons.2 (Or.inl h))
      · rcases ih h with h1 | h1
        · exact Or.inl h1
        · exact Or.inr (List.mem_cons_of_mem _ h1)

theorem alRemove_sublist {α β : Type} [DecidableEq α] (m : List (α × β)) (k : α) :
    (alRemove m k).Sublist m := by
  induction m with
  | nil => simp [alRemove]
  | cons e rest ih =>
    obtain ⟨a, b⟩ := e
    by_cases ha : a = k
    · simp only [alRemove, if_pos ha]
      exact List.sublist_cons_self _ _
    · simp only [alRemove, if_neg ha]
      exact List.Sublist.cons₂ (a, b) ih

theorem mem_alRemove {α β : Type} [DecidableEq α] {m : List (α × β)} {k : α} {e : α × β}
    (h : e ∈ alRemove m k) : e ∈ m :=
  (alRemove_sublist m k).mem h

theorem mem_keys_alInsert {α β : Type} [DecidableEq α] {m : List (α × β)} {k x : α} {v : β}
    (h : x ∈ (alInsert m k v).map Prod.fst) : x = k ∨ x ∈ m.map Prod.fst := by
  rcases List.mem_map.1 h with ⟨e, he, hfst⟩
  rcases mem_alInsert he with h1 | h1
  · subst h1
    exact Or.inl hfst.symm
  · exact Or.inr (List.mem_map.2 ⟨e, h1, hfst⟩)

theorem keys_alInsert_nodup {α β : Type} [DecidableEq α] (m : List (α × β)) (k : α) (v : β)
    (hnd : (m.map Prod.fst).Nodup) : ((alInsert m k v).map Prod.fst).Nodup := by
  induction m with
  | nil => simp [alInsert]
  | cons e rest ih =>
    obtain ⟨a, b⟩ := e
    simp only [List.map_cons, List.nodup_cons] at hnd
    by_cases ha : a = k
    · subst ha
      have hmap : (alInsert ((a, b) :: rest) a v).map Prod.fst = a :: rest.map Prod.fst := by
        simp [alInsert]
      rw [hmap]
      exact List.nodup_cons.2 ⟨hnd.1, hnd.2⟩
    · simp only [alInsert, if_neg ha, List.map_cons, List.nodup_cons]
      refine ⟨fun hmem => ?_, ih hnd.2⟩
      rcases mem_keys_alInsert hmem with h1 | h1
      · exact ha h1
      · exact hnd.1 h1

theorem keys_alRemove_nodup {α β : Type} [DecidableEq α] (m : List (α × β)) (k : α)
    (hnd : (m.map Prod.fst).Nodup) : ((alRemove m k).map Prod.fst).Nodup :=
  hnd.sublist ((alRemove_sublist m k).map Prod.fst)

theorem alGet_eq_some_getFile {files : List (Nat × List Nat)} {g : Nat}
    (h : (alGet files g).isSome = true) : alGet files g = some (getFile files g) := by
  rcases Option.isSome_iff_exists.1 h with ⟨f, hf⟩
  rw [getFile, hf]
  rfl

/-! ### Positioned read/write lemmas -/

theorem length_readAt (f : List Nat) (pos len : Nat) : (readAt f pos len).length = len := by
  simp only [readAt, List.length_append, List.length_take, List.length_drop,
    List.length_replicate]
  omega

theorem readAt_append_of_le (f g : List Nat) (pos len : Nat) (h : pos + len ≤ f.length) :
    readAt (f ++ g) pos len = readAt f pos len := by
  rw [readAt, readAt, List.drop_append_eq_append_drop, List.take_append_eq_append_take]
  have h1 : (f.drop pos).length = f.length - pos := List.length_drop pos f
  have h2 : len - (f.drop pos).length = 0 := by omega
  have h3 : (g.drop (pos - f.length)) = g := by
    have : pos - f.length = 0 := by omega
    simp [this]
  rw [h2, h3]
  simp only [List.take_zero, List.append_nil, List.length_append]
  congr 2
  omega

theorem readAt_append_self (f v : List Nat) : readAt (f ++ v) f.length v.length = v := by
  rw [readAt, List.drop_left, List.take_length]
  have : v.length - ((f ++ v).length - f.length) = 0 := by
    simp only [List.length_append]
    omega
  simp [this]

theorem writeAt_append (f v : List Nat) (pos : Nat) (h : pos = f.length) :
    writeAt f pos v = f ++ v := by
  subst h
  rw [writeAt, List.take_length]
  have h1 : f.length - f.length = 0 := by omega
  have h2 : f.drop (f.length + v.length) = [] := by
    apply List.drop_eq_nil_of_le
    omega
  simp [h1, h2]

/-! ### Generation-maximum lemmas -/

theorem le_foldl_max (l : List Nat) (a : Nat) : a ≤ l.foldl max a := by
  induction l generalizing a with
  | nil => simp
  | cons x xs ih => exact le_trans (le_max_left a x) (ih (max a x))

theorem mem_le_foldl_max (l : List Nat) (a x : Nat) (hx : x ∈ l) : x ≤ l.foldl max a := by
  induction l generalizing a with
  | nil => cases hx
  | cons y ys ih =>
    rcases List.mem_cons.1 hx with h | h
    · subst h
      exact le_trans (le_max_right a x) (le_foldl_max ys (max a x))
    · exact ih (max a y) h

theorem foldl_max_le (l : List Nat) (a n : Nat) (ha : a ≤ n) (h : ∀ x ∈ l, x ≤ n) :
    l.foldl max a ≤ n := by
  induction l generalizing a with
  | nil => simpa
  | cons y ys ih =>
    exact ih (max a y) (max_le ha (h y (List.mem_cons_self y ys)))
      fun x hx => h x (List.mem_cons_of_mem _ hx)

/-! ### The store invariant -/

theorem INV_congr {s t : KvState} (hk : t.keydir = s.keydir) (hf : t.files = s.files)
    (ha : t.activeGen = s.activeGen) (hw : t.writerPos = s.writerPos) (h : INV s) :
    INV t := by
  unfold INV at h ⊢
  rw [hk, hf, ha, hw]
  exact h

theorem get_congr {s t : KvState} (hk : t.keydir = s.keydir) (hf : t.files = s.files)
    (k : Key) : t.get k = s.get k := by
  unfold KvState.get
  rw [hk, hf]

theorem get_of_lookup_none {s : KvState} {k : Key} (h : alGet s.keydir k = none) :
    s.get k = some none := by
  unfold KvState.get
  rw [h]

theorem get_of_lookup_some {s : KvState} {k : Key} {p : LogPos}
    (h : alGet s.keydir k = some p) :
    s.get k =
      match alGet s.files p.gen with
      | none => none
      | some f => some (some (readAt f p.pos p.len)) := by
  unfold KvState.get
  rw [h]

theorem get_mk (kd : List (Key × LogPos)) (a : Nat) (fl : List (Nat × List Nat)) (w : Nat)
    (db : List (Nat × Nat)) (pd : List Nat) (k : Key) :
    (KvState.mk kd a fl w db pd).get k =
      match alGet kd k with
      | none => some none
      | some p =>
        match alGet fl p.gen with
        | none => none
        | some f => some (some (readAt f p.pos p.len)) := rfl

theorem maxGen_eq (s : KvState) (hD : ∀ e ∈ s.files, e.1 ≤ s.activeGen)
    (hE : (alGet s.files s.activeGen).isSome = true) : maxGen s.files = s.activeGen := by
  rcases Option.isSome_iff_exists.1 hE with ⟨f, hf⟩
  apply le_antisymm
  · apply foldl_max_le _ _ _ (Nat.zero_le _)
    intro x hx
    rcases List.mem_map.1 hx with ⟨e, he, rfl⟩
    exact hD e he
  · exact mem_le_foldl_max _ _ _ (List.mem_map.2 ⟨(s.activeGen, f), alGet_mem hf, rfl⟩)

theorem useNextGen_eq_of_lt (s : KvState) (hlt : s.writerPos < COMPACTION_THRESHOLD) :
    useNextGen s = s := by
  rw [useNextGen, if_pos hlt]

theorem useNextGen_eq_of_not_lt (s : KvState) (hlt : ¬s.writerPos < COMPACTION_THRESHOLD) :
    useNextGen s = rotated s := by
  rw [useNextGen, if_neg hlt]
  rfl

/-- `use_next_gen` preserves the invariant and every observation. -/
theorem useNextGen_spec (s : KvState) (h : INV s) :
    INV (useNextGen s) ∧
    (useNextGen s).keydir = s.keydir ∧
    s.activeGen ≤ (useNextGen s).activeGen ∧
    (∀ k, (useNextGen s).get k = s.get k) ∧
    (∀ g, g ≤ s.activeGen → alGet (useNextGen s).files g = alGet s.files g) := by
  obtain ⟨hnd, hfnd, hwp, hB, hD, hE⟩ := h
  by_cases hlt : s.writerPos < COMPACTION_THRESHOLD
  · rw [useNextGen_eq_of_lt s hlt]
    exact ⟨⟨hnd, hfnd, hwp, hB, hD, hE⟩, rfl, le_refl _, fun _ => rfl, fun _ _ => rfl⟩
  · rw [useNextGen_eq_of_not_lt s hlt]
    have hnone : alGet s.files (s.activeGen + 1) = none := by
      rcases hcontra : alGet s.files (s.activeGen + 1) with _ | f
      · rfl
      · have := hD _ (alGet_mem hcontra)
        omega
    have hgf : getFile s.files (s.activeGen + 1) = [] := by
      rw [getFile, hnone]
      rfl
    have hrk : (rotated s).keydir = s.keydir := rfl
    have hra : (rotated s).activeGen = s.activeGen + 1 := rfl
    have hrw : (rotated s).writerPos = 0 := rfl
    have hrf : (rotated s).files = alInsert s.files (s.activeGen + 1) [] := by
      rw [rotated, hgf]
    refine ⟨?_, hrk, ?_, ?_, ?_⟩
    · unfold INV
      rw [hrk, hra, hrw, hrf]
      refine ⟨hnd, keys_alInsert_nodup _ _ _ hfnd, ?_, ?_, ?_, ?_⟩
      · rw [getFile, alGet_insert_self]
        rfl
      · intro e he
        have hgen := hB e he
        have hnegen : e.2.gen ≠ s.activeGen + 1 := by
          intro hh
          rw [hh, hnone] at hgen
          simpa using hgen.1
        rw [alGet_insert_ne _ _ _ _ hnegen, getFile, alGet_insert_ne _ _ _ _ hnegen]
        exact ⟨hgen.1, hgen.2⟩
      · intro e he
        rcases mem_alInsert he with rfl | he1
        · simp
        · exact le_trans (hD e he1) (Nat.le_succ _)
      · rw [alGet_insert_self]
        rfl
    · rw [hra]
      omega
    · intro k
      rcases hk : alGet s.keydir k with _ | p
      · have h1 : alGet (rotated s).keydir k = none := by rw [hrk, hk]
        rw [get_of_lookup_none h1, get_of_lookup_none hk]
      · have hgen := hB _ (alGet_mem hk)
        have hnegen : p.gen ≠ s.activeGen + 1 := by
          intro hh
          rw [hh, hnone] at hgen
          simpa using hgen.1
        have h1 : alGet (rotated s).keydir k = some p := by rw [hrk, hk]
        rw [get_of_lookup_some h1, get_of_lookup_some hk, hrf,
          alGet_insert_ne _ _ _ _ hnegen]
    · intro g hg
      have hne : g ≠ s.activeGen + 1 := by omega
      rw [hrf]
      exact alGet_insert_ne _ _ _ _ hne

theorem writeLog_eq (s : KvState) (v : List Nat) :
    writeLog s v =
      (writeStep (if MAX_FILE_SIZE ≤ s.writerPos then useNextGen s else s) v,
       ⟨(if MAX_FILE_SIZE ≤ s.writerPos then useNextGen s else s).activeGen,
        (if MAX_FILE_SIZE ≤ s.writerPos then useNextGen s else s).writerPos,
        v.length⟩) := rfl

/-- The append step preserves the invariant and every prior observation,
and the claimed offset addresses exactly the written bytes. -/
theorem writeStep_spec (s1 : KvState) (v : List Nat) (h : INV s1) :
    INV (writeStep s1 v) ∧
    (writeStep s1 v).keydir = s1.keydir ∧
    (∀ k, (writeStep s1 v).get k = s1.get k) ∧
    (writeStep s1 v).activeGen = s1.activeGen ∧
    (writeStep s1 v).writerPos = s1.writerPos + v.length ∧
    (alGet (writeStep s1 v).files s1.activeGen).isSome = true ∧
    readAt (getFile (writeStep s1 v).files s1.activeGen) s1.writerPos v.length = v ∧
    s1.writerPos + v.length ≤ (getFile (writeStep s1 v).files s1.activeGen).length ∧
    (∀ g, g ≠ s1.activeGen → alGet (writeStep s1 v).files g = alGet s1.files g) := by
  obtain ⟨hnd, hfnd, hwp, hB, hD, hE⟩ := h
  have halget : alGet s1.files s1.activeGen = some (getFile s1.files s1.activeGen) :=
    alGet_eq_some_getFile hE
  have hwa : writeAt (getFile s1.files s1.activeGen) s1.writerPos v =
      getFile s1.files s1.activeGen ++ v := writeAt_append _ _ _ hwp
  set f1 := getFile s1.files s1.activeGen with hf1
  have hget2 : alGet (writeStep s1 v).files s1.activeGen = some (f1 ++ v) := by
    rw [writeStep]
    show alGet (alInsert s1.files s1.activeGen _) s1.activeGen = _
    rw [alGet_insert_self, hwa]
  have hgf2 : getFile (writeStep s1 v).files s1.activeGen = f1 ++ v := by
    rw [getFile, hget2]
    rfl
  have hfact : ∀ g, g ≠ s1.activeGen → alGet (writeStep s1 v).files g = alGet s1.files g := by
    intro g hg
    rw [writeStep]
    exact alGet_insert_ne _ _ _ _ hg
  refine ⟨⟨hnd, ?_, ?_, ?_, ?_, ?_⟩, rfl, ?_, rfl, rfl, by rw [hget2]; rfl, ?_, ?_, hfact⟩
  · exact keys_alInsert_nodup _ _ _ hfnd
  · show s1.writerPos + v.length = _
    rw [show (writeStep s1 v).activeGen = s1.activeGen from rfl, hgf2, List.length_append]
    omega
  · intro e he
    have hgen := hB e he
    by_cases hg : e.2.gen = s1.activeGen
    · rw [hg, hget2]
      refine ⟨rfl, ?_⟩
      rw [hgf2, List.length_append]
      rw [hg, ← hf1] at hgen
      omega
    · rw [hfact _ hg]
      refine ⟨hgen.1, ?_⟩
      rw [getFile, hfact _ hg]
      exact hgen.2
  · intro e he
    have he2 : e ∈ alInsert s1.files s1.activeGen (writeAt f1 s1.writerPos v) := he
    show e.1 ≤ s1.activeGen
    rcases mem_alInsert he2 with rfl | he1
    · exact le_refl _
    · exact hD e he1
  · rw [show (writeStep s1 v).activeGen = s1.activeGen from rfl, hget2]
    rfl
  · intro k
    rcases hk : alGet s1.keydir k with _ | p
    · have h1 : alGet (writeStep s1 v).keydir k = none := hk
      rw [get_of_lookup_none h1, get_of_lookup_none hk]
    · have h1 : alGet (writeStep s1 v).keydir k = some p := hk
      rw [get_of_lookup_some h1, get_of_lookup_some hk]
      have hgen := hB _ (alGet_mem hk)
      by_cases hg : p.gen = s1.activeGen
      · have hle : p.pos + p.len ≤ f1.length := by
          rw [hg, ← hf1] at hgen
          exact hgen.2
        rw [hg, hget2, halget]
        simp only [readAt_append_of_le _ _ _ _ hle]
      · rw [hfact _ hg]
  · rw [hgf2, hwp]
    exact readAt_append_self f1 v
  · rw [hgf2, List.length_append]
    omega

/-- `write_log` preserves the invariant and every prior observation, and
the returned `LogPos` addresses exactly the written value bytes. -/
theorem writeLog_spec (s : KvState) (v : List Nat) (h : INV s) :
    INV (writeLog s v).1 ∧
    (writeLog s v).1.keydir = s.keydir ∧
    (∀ k, (writeLog s v).1.get k = s.get k) ∧
    (writeLog s v).2.len = v.length ∧
    (writeLog s v).2.gen = (writeLog s v).1.activeGen ∧
    (alGet (writeLog s v).1.files (writeLog s v).2.gen).isSome = true ∧
    readAt (getFile (writeLog s v).1.files (writeLog s v).2.gen)
      (writeLog s v).2.pos (writeLog s v).2.len = v ∧
    (writeLog s v).2.pos + (writeLog s v).2.len ≤
      (getFile (writeLog s v).1.files (writeLog s v).2.gen).length := by
  rw [writeLog_eq]
  set s1 := if MAX_FILE_SIZE ≤ s.writerPos then useNextGen s else s with hs1
  have h1 : INV s1 ∧ s1.keydir = s.keydir ∧ (∀ k, s1.get k = s.get k) := by
    rw [hs1]
    by_cases hc : MAX_FILE_SIZE ≤ s.writerPos
    · rw [if_pos hc]
      obtain ⟨ha, hb, _, hd, _⟩ := useNextGen_spec s h
      exact ⟨ha, hb, hd⟩
    · rw [if_neg hc]
      exact ⟨h, rfl, fun _ => rfl⟩
  obtain ⟨hI, hk, hg⟩ := h1
  obtain ⟨w1, w2, w3, w4, w5, w6, w7, w8, _⟩ := writeStep_spec s1 v hI
  exact ⟨w1, w2.trans hk, fun k => (w3 k).trans (hg k), rfl, w4.symm, w6, w7, w8⟩

theorem set_eq (s : KvState) (k : Key) (v : Value) :
    ∃ s0 : KvState, s0.keydir = s.keydir ∧ s0.files = s.files ∧
      s0.activeGen = s.activeGen ∧ s0.writerPos = s.writerPos ∧
      s.set k v =
        { (writeLog s0 v).1 with
          keydir := alInsert (writeLog s0 v).1.keydir k (writeLog s0 v).2 } := by
  rcases hmk : alGet s.keydir k with _ | old
  · refine ⟨s, rfl, rfl, rfl, rfl, ?_⟩
    simp only [KvState.set, hmk]
  · refine ⟨{ s with
      deadBytes := alInsert s.deadBytes old.gen ((alGet s.deadBytes old.gen).getD 0 + old.len)
      pending :=
        if COMPACTION_THRESHOLD ≤ (alGet s.deadBytes old.gen).getD 0 + old.len then
          s.pending ++ [old.gen]
        else s.pending }, rfl, rfl, rfl, rfl, ?_⟩
    simp only [KvState.set, hmk]

/-- `set` refines a point update of the abstract map. -/
theorem set_GOOD (s : KvState) (m : Key → Option Value) (k : Key) (v : Value)
    (h : GOOD s m) : GOOD (s.set k v) (specApply m (.set k v)) := by
  obtain ⟨hI, hget⟩ := h
  obtain ⟨s0, h1, h2, h3, h4, heq⟩ := set_eq s k v
  have hI0 : INV s0 := INV_congr h1 h2 h3 h4 hI
  have hget0 : ∀ x, s0.get x = s.get x := get_congr h1 h2
  rcases hW : writeLog s0 v with ⟨s1, lp⟩
  obtain ⟨w1, w2, w3, w4, w5, w6, w7, w8⟩ := writeLog_spec s0 v hI0
  rw [hW] at heq w1 w2 w3 w4 w5 w6 w7 w8
  dsimp only at heq w1 w2 w3 w4 w5 w6 w7 w8
  rw [heq]
  constructor
  · obtain ⟨n1, n2, n3, n4, n5, n6⟩ := w1
    refine ⟨keys_alInsert_nodup _ _ _ n1, n2, n3, ?_, n5, n6⟩
    intro e he
    have he2 : e ∈ alInsert s1.keydir k lp := he
    rcases mem_alInsert he2 with rfl | he1
    · exact ⟨w6, w8⟩
    · exact n4 e he1
  · intro x
    by_cases hx : x = k
    · subst hx
      rw [get_mk, alGet_insert_self]
      show (match alGet s1.files lp.gen with
        | none => none
        | some f => some (some (readAt f lp.pos lp.len))) = _
      rw [alGet_eq_some_getFile w6]
      show some (some (readAt (getFile s1.files lp.gen) lp.pos lp.len)) = _
      rw [w7]
      simp [specApply]
    · rw [get_mk, alGet_insert_ne _ _ _ _ hx]
      have hs1x :
          (match alGet s1.keydir x with
            | none => some none
            | some p =>
              match alGet s1.files p.gen with
              | none => none
              | some f => some (some (readAt f p.pos p.len))) = s1.get x := rfl
      rw [hs1x, w3 x, hget0 x, hget x]
      simp [specApply, hx]

/-- `remove` refines a point deletion of the abstract map. -/
theorem remove_GOOD (s : KvState) (m : Key → Option Value) (k : Key)
    (h : GOOD s m) : GOOD ((s.remove k).1) (specApply m (.remove k)) := by
  obtain ⟨hI, hget⟩ := h
  obtain ⟨hnd, hfnd, hwp, hB, hD, hE⟩ := hI
  rcases hmk : alGet s.keydir k with _ | old
  · have heq : (s.remove k).1 = s := by
      simp only [KvState.remove, hmk]
    rw [heq]
    have hmkv : m k = none := by
      have hh := hget k
      rw [get_of_lookup_none hmk] at hh
      exact (Option.some.inj hh).symm
    refine ⟨⟨hnd, hfnd, hwp, hB, hD, hE⟩, fun x => ?_⟩
    by_cases hx : x = k
    · subst hx
      rw [get_of_lookup_none hmk]
      simp [specApply, hmkv]
    · rw [hget x]
      simp [specApply, hx]
  · have heq : (s.remove k).1 =
        { s with
          keydir := alRemove s.keydir k
          deadBytes :=
            alInsert s.deadBytes old.gen ((alGet s.deadBytes old.gen).getD 0 + old.len)
          pending :=
            if COMPACTION_THRESHOLD ≤ (alGet s.deadBytes old.gen).getD 0 + old.len then
              s.pending ++ [old.gen]
            else s.pending } := by
      simp only [KvState.remove, hmk]
    rw [heq]
    constructor
    · refine ⟨keys_alRemove_nodup _ _ hnd, hfnd, hwp, ?_, hD, hE⟩
      intro e he
      exact hB e (mem_alRemove he)
    · intro x
      by_cases hx : x = k
      · subst hx
        rw [get_mk, alGet_remove_self _ _ hnd]
        simp [specApply]
      · rw [get_mk, alGet_remove_ne _ _ _ hx]
        have hsx :
            (match alGet s.keydir x with
              | none => some none
              | some p =>
                match alGet s.files p.gen with
                | none => none
                | some f => some (some (readAt f p.pos p.len))) = s.get x := rfl
        rw [hsx, hget x]
        simp [specApply, hx]

/-- Running client operations refines folding the abstract updates. -/
theorem runOps_GOOD (ops : List Op) (s : KvState) (m : Key → Option Value)
    (h : GOOD s m) : GOOD (runOps s ops) (ops.foldl specApply m) := by
  induction ops generalizing s m with
  | nil => exact h
  | cons op rest ih =>
    rcases op with ⟨k, v⟩ | ⟨k⟩
    · exact ih _ _ (set_GOOD _ _ _ _ h)
    · exact ih _ _ (remove_GOOD _ _ _ h)

theorem fresh_GOOD : GOOD freshStore fun _ => none := by
  constructor
  · decide
  · intro k
    exact get_of_lookup_none rfl

/-- `open` after `close` restores the state (and empties the compaction
queue — the background task is restarted). -/
theorem openStore_closeStore (s : KvState) (h : INV s) :
    openStore (closeStore s) = some { s with pending := [] } := by
  obtain ⟨hnd, hfnd, hwp, hB, hD, hE⟩ := h
  have hne : s.files.isEmpty = false := by
    rcases Option.isSome_iff_exists.1 hE with ⟨f, hf⟩
    have hmem := alGet_mem hf
    cases hfi : s.files with
    | nil =>
      rw [hfi] at hmem
      cases hmem
    | cons a l => rfl
  have hif : (if s.files.isEmpty then [((0:Nat), ([]:List Nat))] else s.files) = s.files := by
    rw [hne]
    simp
  have hmax : maxGen s.files = s.activeGen := maxGen_eq s hD hE
  have h1 : openStore (closeStore s) =
      some (KvState.mk s.keydir
        (maxGen (if s.files.isEmpty then [((0:Nat), ([]:List Nat))] else s.files))
        (if s.files.isEmpty then [((0:Nat), ([]:List Nat))] else s.files)
        ((getFile (if s.files.isEmpty then [((0:Nat), ([]:List Nat))] else s.files)
          (maxGen (if s.files.isEmpty then [((0:Nat), ([]:List Nat))] else s.files))).length)
        s.deadBytes []) := rfl
  rw [h1, hif, hmax, ← hwp]

/-! ### Compaction lemmas -/

theorem compactLoop_cons (gen : Nat) (key : Key) (p : LogPos)
    (rest : List (Key × LogPos)) (s : KvState) :
    compactLoop gen ((key, p) :: rest) s =
      compactLoop gen rest
        { writeStep s (readAt (getFile s.files gen) p.pos p.len) with
          keydir := alInsert s.keydir key
            ⟨s.activeGen, s.writerPos, (readAt (getFile s.files gen) p.pos p.len).length⟩ } :=
  rfl

/-- The compaction loop preserves the invariant and every observation, and
afterwards no key-directory entry references the compacted generation. -/
theorem compactLoop_spec (gen : Nat) (snap : List (Key × LogPos)) :
    ∀ s : KvState, INV s → s.activeGen ≠ gen →
    (∀ e ∈ snap, e.2.gen = gen) →
    (snap.map Prod.fst).Nodup →
    (∀ e ∈ snap, alGet s.keydir e.1 = some e.2) →
    (∀ k p, alGet s.keydir k = some p → p.gen = gen → ∃ e ∈ snap, e.1 = k) →
    INV (compactLoop gen snap s) ∧
    (compactLoop gen snap s).activeGen = s.activeGen ∧
    (∀ k, (compactLoop gen snap s).get k = s.get k) ∧
    (∀ k p, alGet (compactLoop gen snap s).keydir k = some p → p.gen ≠ gen) := by
  induction snap with
  | nil =>
    intro s hInv hA hgen hnd hsnap href
    refine ⟨hInv, rfl, fun _ => rfl, fun k p hk hpg => ?_⟩
    rcases href k p hk hpg with ⟨e, he, _⟩
    cases he
  | cons hd rest ih =>
    obtain ⟨key, p⟩ := hd
    intro s hInv hA hgen hnd hsnap href
    rw [compactLoop_cons]
    set buffer := readAt (getFile s.files gen) p.pos p.len with hbuf
    have hkp : alGet s.keydir key = some p := hsnap (key, p) (List.mem_cons_self _ _)
    have hpg : p.gen = gen := hgen (key, p) (List.mem_cons_self _ _)
    obtain ⟨hnd0, hfnd0, hwp0, hB0, hD0, hE0⟩ := hInv
    have hpB := hB0 _ (alGet_mem hkp)
    obtain ⟨v1, v2, v3, v4, v5, v6, v7, v8, v9⟩ :=
      writeStep_spec s buffer ⟨hnd0, hfnd0, hwp0, hB0, hD0, hE0⟩
    simp only [List.map_cons, List.nodup_cons] at hnd
    set t : KvState :=
      { writeStep s buffer with
        keydir := alInsert s.keydir key ⟨s.activeGen, s.writerPos, buffer.length⟩ } with ht
    have htk : t.keydir = alInsert s.keydir key ⟨s.activeGen, s.writerPos, buffer.length⟩ := rfl
    have htf : t.files = (writeStep s buffer).files := rfl
    have hta : t.activeGen = s.activeGen := rfl
    have hIt : INV t := by
      obtain ⟨n1, n2, n3, n4, n5, n6⟩ := v1
      refine ⟨keys_alInsert_nodup _ _ _ n1, n2, n3, ?_, n5, n6⟩
      intro e he
      have he2 : e ∈ alInsert s.keydir key ⟨s.activeGen, s.writerPos, buffer.length⟩ := he
      rcases mem_alInsert he2 with rfl | he1
      · exact ⟨v6, v8⟩
      · exact n4 e he1
    have htget : ∀ x, t.get x = s.get x := by
      intro x
      by_cases hx : x = key
      · subst hx
        rw [get_mk, alGet_insert_self]
        show (match alGet (writeStep s buffer).files s.activeGen with
          | none => none
          | some f => some (some (readAt f s.writerPos buffer.length))) = s.get x
        rw [alGet_eq_some_getFile v6]
        show some (some (readAt (getFile (writeStep s buffer).files s.activeGen)
          s.writerPos buffer.length)) = s.get x
        rw [v7, get_of_lookup_some hkp, alGet_eq_some_getFile hpB.1]
        show some (some buffer) = some (some (readAt (getFile s.files p.gen) p.pos p.len))
        rw [hbuf, hpg]
      · rw [get_mk, alGet_insert_ne _ _ _ _ hx]
        have hstep : (match alGet s.keydir x with
            | none => some none
            | some q =>
              match alGet (writeStep s buffer).files q.gen with
              | none => none
              | some f => some (some (readAt f q.pos q.len))) =
            (writeStep s buffer).get x := by
          rcases hkx : alGet s.keydir x with _ | q
          · have h1 : alGet (writeStep s buffer).keydir x = none := hkx
            rw [get_of_lookup_none h1]
          · have h1 : alGet (writeStep s buffer).keydir x = some q := hkx
            rw [get_of_lookup_some h1]
        rw [hstep, v3 x]
    have hsnap1 : ∀ e ∈ rest, alGet t.keydir e.1 = some e.2 := by
      intro e he
      have hne : e.1 ≠ key := by
        intro hh
        exact hnd.1 (hh ▸ List.mem_map.2 ⟨e, he, rfl⟩)
      rw [htk, alGet_insert_ne _ _ _ _ hne]
      exact hsnap e (List.mem_cons_of_mem _ he)
    have href1 : ∀ k q, alGet t.keydir k = some q → q.gen = gen → ∃ e ∈ rest, e.1 = k := by
      intro k q hk hqg
      by_cases hx : k = key
      · subst hx
        rw [htk, alGet_insert_self] at hk
        cases hk
        exact absurd hqg hA
      · rw [htk, alGet_insert_ne _ _ _ _ hx] at hk
        rcases href k q hk hqg with ⟨e, he, hek⟩
        rcases List.mem_cons.1 he with rfl | he1
        · exact absurd hek.symm hx
        · exact ⟨e, he1, hek⟩
    have hA1 : t.activeGen ≠ gen := by
      rw [hta]
      exact hA
    obtain ⟨c1, c2, c3, c4⟩ := ih t hIt hA1
      (fun e he => hgen e (List.mem_cons_of_mem _ he)) hnd.2 hsnap1 href1
    exact ⟨c1, c2.trans hta, fun x => (c3 x).trans (htget x),
      c4⟩

theorem compactGen_eq_of_not_skip (s : KvState) (gen : Nat) (h : compactSkip s gen = false)
    (f : List Nat)
    (hf : alGet (if MAX_FILE_SIZE ≤ s.writerPos then useNextGen s else s).files gen = some f) :
    compactGen s gen =
      some (compactRun (if MAX_FILE_SIZE ≤ s.writerPos then useNextGen s else s) gen) := by
  rw [compactGen, if_neg (by simp [h])]
  dsimp only
  rw [hf]
  rfl

/-- The non-skipped tail deletes the file, clears all references to the
generation, and preserves every `get`. -/
theorem compactRun_spec (s1 : KvState) (gen : Nat) (hI : INV s1)
    (hA : s1.activeGen ≠ gen) :
    alGet (compactRun s1 gen).files gen = none ∧
    (∀ k p, alGet (compactRun s1 gen).keydir k = some p → p.gen ≠ gen) ∧
    (∀ k, (compactRun s1 gen).get k = s1.get k) := by
  set s2 : KvState := { s1 with deadBytes := alRemove s1.deadBytes gen } with hs2
  have hI2 : INV s2 := INV_congr rfl rfl rfl rfl hI
  have hget2 : ∀ k, s2.get k = s1.get k := get_congr rfl rfl
  have hnd2 : (s2.keydir.map Prod.fst).Nodup := hI2.1
  set snap := s2.keydir.filter (fun e => e.2.gen == gen) with hsnap
  have hgen : ∀ e ∈ snap, e.2.gen = gen := by
    intro e he
    have hb := (List.mem_filter.1 he).2
    simpa using hb
  have hndsnap : (snap.map Prod.fst).Nodup :=
    hnd2.sublist ((List.filter_sublist s2.keydir).map Prod.fst)
  have hsnap2 : ∀ e ∈ snap, alGet s2.keydir e.1 = some e.2 := by
    intro e he
    have hmem := (List.mem_filter.1 he).1
    exact (show alGet s2.keydir e.1 = some e.2 from by
      obtain ⟨a, b⟩ := e
      exact mem_alGet hmem hnd2)
  have href : ∀ k p, alGet s2.keydir k = some p → p.gen = gen → ∃ e ∈ snap, e.1 = k := by
    intro k p hk hpg
    refine ⟨(k, p), List.mem_filter.2 ⟨alGet_mem hk, ?_⟩, rfl⟩
    simp [hpg]
  have hA2 : s2.activeGen ≠ gen := hA
  obtain ⟨c1, c2, c3, c4⟩ := compactLoop_spec gen snap s2 hI2 hA2 hgen hndsnap hsnap2 href
  set s3 := compactLoop gen snap s2 with hs3
  have hrun : compactRun s1 gen =
      { s3 with deadBytes := alRemove s3.deadBytes gen, files := alRemove s3.files gen } :=
    rfl
  obtain ⟨nd3, fnd3, _, _, _, _⟩ := c1
  rw [hrun]
  refine ⟨alGet_remove_self _ _ fnd3, fun k p hk => c4 k p hk, fun k => ?_⟩
  rcases hkx : alGet s3.keydir k with _ | p
  · rw [get_mk, hkx, ← ((c3 k).trans (hget2 k)), get_of_lookup_none hkx]
  · rw [get_mk, hkx]
    show (match alGet (alRemove s3.files gen) p.gen with
      | none => none
      | some f => some (some (readAt f p.pos p.len))) = s1.get k
    rw [alGet_remove_ne _ _ _ (c4 k p hkx), ← ((c3 k).trans (hget2 k)),
      get_of_lookup_some hkx]

theorem remove_snd (s : KvState) (k : Key) :
    (s.remove k).2 = (alGet s.keydir k).isSome := by
  rcases h : alGet s.keydir k with _ | old <;> simp [KvState.remove, h]

theorem remove_fst_files (s : KvState) (k : Key) :
    ((s.remove k).1).files = s.files := by
  rcases h : alGet s.keydir k with _ | old <;> simp [KvState.remove, h]

theorem isSome_keydir_of_get (s : KvState) (k : Key) (v : Value)
    (h : s.get k = some (some v)) : (alGet s.keydir k).isSome = true := by
  rcases hk : alGet s.keydir k with _ | p
  · rw [get_of_lookup_none hk] at h
    cases Option.some.inj h
  · rfl

theorem eWriteLog_eq (es : Engines.EKvState) (key : List Nat) (value : Option (List Nat))
    (h : ¬Engines.EMAX_FILE_SIZE ≤ es.writerPos) :
    Engines.eWriteLog es key value =
      ({ es with
          writerPos := es.writerPos +
            (1 + 8 + key.length + match value with | some v => 8 + v.length | none => 0)
          files := alInsert es.files es.activeGen
            (writeAt (getFile es.files es.activeGen) es.writerPos
              (match value with
                | some v => Engines.encodeLog (.set key v)
                | none => Engines.encodeLog (.remove key))) },
       ⟨es.activeGen, es.writerPos,
        1 + 8 + key.length + match value with | some v => 8 + v.length | none => 0⟩) := by
  rw [Engines.eWriteLog.eq_def, if_neg h]

/-! ### Claim theorems -/

/-- Claim C6: after compaction of a sealed generation `gen` completes (its
dead bytes reached the threshold, so the work unit is not skipped), the
file `<gen>.log` no longer exists, no key-directory entry references
`gen`, and every `get` returns the same value as before compaction. -/
theorem compaction_postcondition (s : KvState) (gen d : Nat)
    (hInv : INV s) (hgen : gen ≠ s.activeGen)
    (hdb : alGet s.deadBytes gen = some d) (hT : COMPACTION_THRESHOLD ≤ d)
    (hfile : (alGet s.files gen).isSome = true) :
    ∃ s2, compactGen s gen = some s2 ∧
      alGet s2.files gen = none ∧
      (∀ k p, alGet s2.keydir k = some p → p.gen ≠ gen) ∧
      (∀ k, s2.get k = s.get k) := by
  have hskip : compactSkip s gen = false := by
    rw [compactSkip, hdb]
    show (s.activeGen == gen || decide (d < COMPACTION_THRESHOLD)) = false
    rw [Bool.or_eq_false_iff]
    exact ⟨beq_eq_false_iff_ne.2 (Ne.symm hgen), decide_eq_false (Nat.not_lt.2 hT)⟩
  have hgle : gen ≤ s.activeGen :=
    hInv.2.2.2.2.1 _ (alGet_mem (alGet_eq_some_getFile hfile))
  set s1 := if MAX_FILE_SIZE ≤ s.writerPos then useNextGen s else s with hs1
  have h1 : INV s1 ∧ (∀ k, s1.get k = s.get k) ∧ s1.activeGen ≠ gen ∧
      alGet s1.files gen = alGet s.files gen := by
    rw [hs1]
    by_cases hc : MAX_FILE_SIZE ≤ s.writerPos
    · rw [if_pos hc]
      obtain ⟨u1, u2, u3, u4, u5⟩ := useNextGen_spec s hInv
      refine ⟨u1, u4, ?_, u5 gen hgle⟩
      have hnl : ¬s.writerPos < COMPACTION_THRESHOLD := by
        rw [MAX_FILE_SIZE] at hc
        rw [COMPACTION_THRESHOLD]
        omega
      rw [useNextGen_eq_of_not_lt s hnl]
      show s.activeGen + 1 ≠ gen
      omega
    · rw [if_neg hc]
      exact ⟨hInv, fun _ => rfl, Ne.symm hgen, rfl⟩
  obtain ⟨hI1, hget1, hA1, hf1⟩ := h1
  have hfile1 : (alGet s1.files gen).isSome = true := by
    rw [hf1]
    exact hfile
  rcases Option.isSome_iff_exists.1 hfile1 with ⟨f, hff⟩
  rw [hs1] at hff
  have heq := compactGen_eq_of_not_skip s gen hskip f hff
  obtain ⟨r1, r2, r3⟩ := compactRun_spec s1 gen hI1 hA1
  refine ⟨compactRun s1 gen, ?_, r1, r2, fun k => (r3 k).trans (hget1 k)⟩
  rw [hs1]
  exact heq

/-- Witness for C6: a concrete sealed generation with 700 dead bytes is
compacted and the postcondition holds. -/
theorem compaction_postcondition_witness :
    (INV compactWitnessState ∧ (0:Nat) ≠ compactWitnessState.activeGen ∧
      alGet compactWitnessState.deadBytes 0 = some 700 ∧
      COMPACTION_THRESHOLD ≤ 700 ∧
      (alGet compactWitnessState.files 0).isSome = true) ∧
    ∃ s2, compactGen compactWitnessState 0 = some s2 ∧
      alGet s2.files 0 = none ∧
      (∀ k p, alGet s2.keydir k = some p → p.gen ≠ 0) ∧
      (∀ k, s2.get k = compactWitnessState.get k) :=
  ⟨⟨by decide, by decide, by decide, by decide, by decide⟩,
    compaction_postcondition compactWitnessState 0 700 (by decide) (by decide)
      (by decide) (by decide) (by decide)⟩

/-- Claim C1: after any sequence of acknowledged `set`/`remove`
operations on a store opened from an empty directory, dropping the store
and reopening the directory yields a store whose `get` returns, for every
key, the value of the last acknowledged `set` not followed by an
acknowledged `remove`, and `None` otherwise. -/
theorem reopen_preserves_acknowledged_ops (ops : List Op) (k : Key) :
    ∃ s0 s1 : KvState, openStore emptyDisk = some s0 ∧
      openStore (closeStore (runOps s0 ops)) = some s1 ∧
      s1.get k = some (specRun ops k) := by
  have hG := runOps_GOOD ops freshStore _ fresh_GOOD
  refine ⟨freshStore, { runOps freshStore ops with pending := [] }, rfl,
    openStore_closeStore _ hG.1, ?_⟩
  have hgg : ({ runOps freshStore ops with pending := [] } : KvState).get k =
      (runOps freshStore ops).get k := get_congr rfl rfl k
  rw [hgg, hG.2 k]
  rfl

/-- Claim C2: immediately after `set(k, v)` returns success on any
reachable store, `get(k)` returns `Some(v)`. -/
theorem set_then_get (ops : List Op) (k : Key) (v : Value) :
    ((runOps freshStore ops).set k v).get k = some (some v) := by
  have hG := set_GOOD _ _ k v (runOps_GOOD ops freshStore _ fresh_GOOD)
  rw [hG.2 k]
  simp [specApply]

/-- Claim C3 (code bug): the engines writer emits a `Put` record exactly
as the claim's format says — tag `0x01`, big-endian lengths, key, value —
but `Log::read` is not its inverse: it dispatches tag `1` to the
`Remove` branch, whose 7-byte length slice panics, so decoding the bytes
written for `Put{key="k", value="v"}` fails instead of returning the
record. -/
theorem put_record_decoder_not_inverse :
    Engines.encodeLog (.set [107] [118]) =
      [1, 0, 0, 0, 0, 0, 0, 0, 1, 0, 0, 0, 0, 0, 0, 0, 1, 107, 118] ∧
    Engines.decodeLog (Engines.encodeLog (.set [107] [118])) 0 = none := by
  decide

/-- Counterexample to claim C4: in the engine built by `lib.rs`
(src/kvs.rs), a successful `remove` of a present key appends nothing —
the files are bit-for-bit unchanged. -/
theorem remove_appends_no_tombstone_counterexample :
    (((freshStore.set [107] [118]).remove [107]).2 = true) ∧
    (((freshStore.set [107] [118]).remove [107]).1).files =
      (freshStore.set [107] [118]).files := by
  decide

/-- Claim C4 as amended: in src/engines/kvs.rs, `remove` of a present key
appends a tombstone record (tag `0x00`, key length, key) to the active
generation file before returning `Ok`; in src/kvs.rs — the engine built
by `lib.rs` — `remove` writes nothing to any log file, the removal living
only in the in-memory key directory until the hint file is written on
drop. -/
theorem remove_append_behavior (es : Engines.EKvState) (k : Key) (old : LogPos)
    (hk : alGet es.keydir k = some old)
    (hlt : es.writerPos < Engines.EMAX_FILE_SIZE)
    (hpos : es.writerPos = (getFile es.files es.activeGen).length) :
    ((Engines.eRemove es k).2 = true ∧
      (Engines.eRemove es k).1.files =
        alInsert es.files es.activeGen
          (getFile es.files es.activeGen ++ Engines.encodeLog (.remove k))) ∧
    ∀ (s : KvState) (x : Key), ((s.remove x).1).files = s.files := by
  refine ⟨?_, fun s x => remove_fst_files s x⟩
  have hnot : ¬Engines.EMAX_FILE_SIZE ≤ es.writerPos := Nat.not_le.2 hlt
  have hW := eWriteLog_eq { es with keydir := alRemove es.keydir k } k none hnot
  simp only [Engines.eRemove, hk, hW]
  constructor
  · by_cases hog : old.gen ≠ es.activeGen <;> simp [hog]
  · rw [writeAt_append _ _ _ hpos]
    by_cases hog : old.gen ≠ es.activeGen <;> simp [hog]

/-- Witness for C4's amended claim at a concrete engines store. -/
theorem remove_append_behavior_witness :
    (alGet eRemoveWitnessState.keydir [107] = some ⟨0, 0, 19⟩ ∧
      eRemoveWitnessState.writerPos < Engines.EMAX_FILE_SIZE ∧
      eRemoveWitnessState.writerPos =
        (getFile eRemoveWitnessState.files eRemoveWitnessState.activeGen).length) ∧
    ((Engines.eRemove eRemoveWitnessState [107]).2 = true ∧
      (Engines.eRemove eRemoveWitnessState [107]).1.files =
        alInsert eRemoveWitnessState.files eRemoveWitnessState.activeGen
          (getFile eRemoveWitnessState.files eRemoveWitnessState.activeGen ++
            Engines.encodeLog (.remove [107]))) ∧
    ∀ (s : KvState) (x : Key), ((s.remove x).1).files = s.files :=
  ⟨⟨by decide, by decide, by decide⟩,
    remove_append_behavior eRemoveWitnessState [107] ⟨0, 0, 19⟩ (by decide) (by decide)
      (by decide)⟩

/-- Claim C5 (code bug): replay fails on the engine's own log — the first
`Put` record written by `write_log` makes `Log::read` panic, and even a
decodable file is read for exactly one record — and in src/kvs.rs a
corrupt hint file panics in `bincode::deserialize(..).unwrap()` instead
of falling back to replay (there is no replay in that engine at all:
a missing hint yields an empty key directory). -/
theorem replay_and_corrupt_hint_failures :
    Engines.replayLogs [(0, Engines.encodeLog (.set [107] [118]))] [] [] = none ∧
    openStore ⟨[(0, [118])], .corrupt⟩ = none := by
  decide

/-- Counterexample to claim C7: after `set("k", [2, 3])` from a fresh
store, the key directory holds `LogPos ⟨0, 0, 2⟩`, but the bytes at that
position are the raw value `[2, 3]` — decoding them per the record format
fails (tag byte 2), so they are not a `Put` record carrying the key. -/
theorem keydir_entry_not_a_put_record :
    alGet (freshStore.set [107] [2, 3]).keydir [107] = some ⟨0, 0, 2⟩ ∧
    specFormatDecode (getFile (freshStore.set [107] [2, 3]).files 0) 0 = none := by
  decide

/-- Claim C7 as amended: at every quiescent state, for every `LogPos p`
held in the key directory, the bytes at `p` are exactly the value that
`get` returns — the current value of the key — because src/kvs.rs logs
raw value bytes with no record framing. -/
theorem keydir_points_at_current_value (ops : List Op) (k : Key) (p : LogPos)
    (h : alGet (runOps freshStore ops).keydir k = some p) :
    (runOps freshStore ops).get k =
      some (some (readAt (getFile (runOps freshStore ops).files p.gen) p.pos p.len)) ∧
    specRun ops k =
      some (readAt (getFile (runOps freshStore ops).files p.gen) p.pos p.len) := by
  have hG := runOps_GOOD ops freshStore _ fresh_GOOD
  have hB := hG.1.2.2.2.1 _ (alGet_mem h)
  have h2 : (runOps freshStore ops).get k =
      some (some (readAt (getFile (runOps freshStore ops).files p.gen) p.pos p.len)) := by
    rw [get_of_lookup_some h, alGet_eq_some_getFile hB.1]
  refine ⟨h2, ?_⟩
  have h3 := hG.2 k
  rw [h2] at h3
  exact (Option.some.inj h3).symm

/-- Witness for C7's amended claim at a concrete run. -/
theorem keydir_points_at_current_value_witness :
    alGet (runOps freshStore [Op.set [107] [2, 3]]).keydir [107] = some ⟨0, 0, 2⟩ ∧
    ((runOps freshStore [Op.set [107] [2, 3]]).get [107] =
      some (some (readAt
        (getFile (runOps freshStore [Op.set [107] [2, 3]]).files 0) 0 2)) ∧
    specRun [Op.set [107] [2, 3]] [107] =
      some (readAt (getFile (runOps freshStore [Op.set [107] [2, 3]]).files 0) 0 2)) :=
  ⟨by decide,
    keydir_points_at_current_value [Op.set [107] [2, 3]] [107] ⟨0, 0, 2⟩ (by decide)⟩

/-- Counterexample to claim C8: a fresh store accepts a 1200-byte value;
the record is written at offset 0 of generation 0 and extends to 1200,
past the `MAX_FILE_SIZE` cap of 1000 — the writer does not consider the
record's length when deciding to rotate. -/
theorem record_past_cap_counterexample :
    alGet (freshStore.set [1] (List.replicate 1200 2)).keydir [1] = some ⟨0, 0, 1200⟩ ∧
    MAX_FILE_SIZE < 0 + 1200 := by
  decide

/-- Claim C8 as amended: `write_log` rotates only when `writer_pos` has
already reached `MAX_FILE_SIZE` — the record's length is not considered —
so every record starts at an offset strictly below the cap, but may
extend past it. -/
theorem record_starts_below_cap (s : KvState) (v : List Nat) :
    (writeLog s v).2.pos < MAX_FILE_SIZE := by
  rw [writeLog_eq]
  show (if MAX_FILE_SIZE ≤ s.writerPos then useNextGen s else s).writerPos < MAX_FILE_SIZE
  by_cases hc : MAX_FILE_SIZE ≤ s.writerPos
  · rw [if_pos hc]
    have hnl : ¬s.writerPos < COMPACTION_THRESHOLD := by
      rw [MAX_FILE_SIZE] at hc
      rw [COMPACTION_THRESHOLD]
      omega
    rw [useNextGen_eq_of_not_lt s hnl]
    show (0 : Nat) < MAX_FILE_SIZE
    decide
  · rw [if_neg hc]
    exact Nat.not_le.1 hc

/-- Claim C9: the public interface accepts the empty key — `set` with the
empty key succeeds and a subsequent `get` of the empty key returns the
value, `remove` of the empty key succeeds exactly when it is present (no
operation validates or rejects an empty key). -/
theorem empty_key_accepted (ops : List Op) (v : Value) :
    ((runOps freshStore ops).set [] v).get [] = some (some v) ∧
    (((runOps freshStore ops).set [] v).remove []).2 = true ∧
    ((runOps freshStore ops).remove []).2 =
      (alGet (runOps freshStore ops).keydir []).isSome := by
  have hG := set_GOOD _ _ [] v (runOps_GOOD ops freshStore _ fresh_GOOD)
  have hget : ((runOps freshStore ops).set [] v).get [] = some (some v) := by
    rw [hG.2 []]
    simp [specApply]
  refine ⟨hget, ?_, remove_snd _ _⟩
  rw [remove_snd]
  exact isSome_keydir_of_get _ _ _ hget

/-- Claim C10: `use_next_gen` called with `writer_pos` below
`COMPACTION_THRESHOLD` returns `Ok` leaving the state — active
generation, writer, writer position, reader pool, files — unchanged; a
rotation that does change the state only happens with `writer_pos` at or
above the threshold, so the sealed generation holds at least
`COMPACTION_THRESHOLD` bytes. -/
theorem rotation_noop_below_threshold (s : KvState) :
    (s.writerPos < COMPACTION_THRESHOLD → useNextGen s = s) ∧
    (useNextGen s ≠ s → COMPACTION_THRESHOLD ≤ s.writerPos) ∧
    (s.writerPos = (getFile s.files s.activeGen).length → useNextGen s ≠ s →
      COMPACTION_THRESHOLD ≤ (getFile s.files s.activeGen).length) := by
  have h2 : useNextGen s ≠ s → COMPACTION_THRESHOLD ≤ s.writerPos := by
    intro hne
    by_contra hlt
    exact hne (useNextGen_eq_of_lt s (Nat.not_le.1 hlt))
  refine ⟨useNextGen_eq_of_lt s, h2, ?_⟩
  intro hwp hne
  rw [← hwp]
  exact h2 hne

/-- Witness for C10: the fresh store's writer position 0 is below the
threshold and `use_next_gen` leaves it unchanged. -/
theorem rotation_noop_below_threshold_witness :
    freshStore.writerPos < COMPACTION_THRESHOLD ∧ useNextGen freshStore = freshStore :=
  ⟨by decide, (rotation_noop_below_threshold freshStore).1 (by decide)⟩

end Kvs
